import Mathlib

/-
Verification of the training orchestration core of `src/train.py`
(`train_one_epoch` and `train_and_evaluate`), via a shallow embedding.

Modelling conventions:
* A batch is represented by the data `train_one_epoch` observes about it:
  the model's raw prediction score matrix, the integer multi-hot target
  matrix, and the scalar loss value `criterion(y_pred, target)` for that
  batch (the model, loss function and optimizer are external collaborators;
  only their observable interaction with the loop is embedded).
* Optimizer steps are recorded as the list of batch indices whose gradients
  are pending (accumulated since the last `zero_grad`) at the moment
  `optimizer.step()` runs; this captures which batches contribute to which
  applied gradient step.
* Python runtime errors that the loop can raise (`NameError` from the
  `for/else` branch reading the never-bound loop variable on an empty
  loader, `ZeroDivisionError` from averaging an empty loss list) are
  modelled as `Except` errors.
* Real-valued quantities (losses, scores, thresholds, macro-F1 values) are
  modelled as rationals.
-/

namespace Train

/-- One training batch as observed by `train_one_epoch`: the model's raw
prediction scores `y_pred` (rows = examples, columns = labels), the integer
multi-hot target rows, and the scalar value of `criterion(y_pred, target)`
for this batch. -/
structure Batch where
  pred : List (List ℚ)
  target : List (List ℤ)
  lossVal : ℚ
deriving DecidableEq

/-- Elementwise strict binarization of one score row, mirroring
`(y_pred.data.cpu().detach().numpy() > params.threshold).astype(np.int32)`:
a score strictly greater than the threshold becomes `1`, otherwise `0`. -/
def binRow (th : ℚ) (row : List ℚ) : List ℤ :=
  row.map (fun x => if th < x then 1 else 0)

/-- Binarization of a whole prediction matrix, row by row. -/
def binMatrix (th : ℚ) (m : List (List ℚ)) : List (List ℤ) :=
  m.map (binRow th)

/-- The mutable state of the training loop in `train_one_epoch`:
`lossBatch` is the Python list `loss_batch`; `steps` records, for each
applied `optimizer.step()`, the batch indices whose gradients were pending;
`pending` is the set of batch indices accumulated since the last
`optimizer.zero_grad()`; `outputs`/`targets` are the row-wise accumulated
matrices held by `utils.Accumulate`. -/
structure LoopState where
  lossBatch : List ℚ
  steps : List (List ℕ)
  pending : List ℕ
  outputs : List (List ℤ)
  targets : List (List ℤ)
deriving DecidableEq

/-- The loop state before the first batch. -/
def initState : LoopState := ⟨[], [], [], [], []⟩

/-- Body of the training loop of `train_one_epoch` at 0-based batch index
`i`: `loss.backward()` adds `i` to the pending gradient group; if
`(i + 1) % K == 0` the optimizer step is applied (recording the pending
group), gradients are cleared and `loss.item()` is appended to
`loss_batch`; finally the binarized predictions and integer targets are
appended to the accumulator (for every batch, step boundary or not). -/
def stepBody (K : ℕ) (th : ℚ) (s : LoopState) (i : ℕ) (b : Batch) : LoopState :=
  let s1 : LoopState := { s with pending := s.pending ++ [i] }
  let s2 : LoopState :=
    if (i + 1) % K = 0 then
      { s1 with
        steps := s1.steps ++ [s1.pending]
        pending := []
        lossBatch := s1.lossBatch ++ [b.lossVal] }
    else s1
  { s2 with
    outputs := s2.outputs ++ binMatrix th b.pred
    targets := s2.targets ++ b.target }

/-- The training loop of `train_one_epoch`, processing the remaining
batches starting at 0-based batch index `i`. -/
def runBatches (K : ℕ) (th : ℚ) : ℕ → List Batch → LoopState → LoopState
  | _, [], s => s
  | i, b :: bs, s => runBatches K th (i + 1) bs (stepBody K th s i b)

/-- The loop state after the full training loop of one epoch. -/
def epochState (K : ℕ) (th : ℚ) (batches : List Batch) : LoopState :=
  runBatches K th 0 batches initState

/-- Python runtime errors `train_one_epoch` can raise: `unboundLocal`
models the `NameError` raised by the `for/else` branch when the loop
variable `i` (and `loss`) were never bound because the loader was empty;
`divisionByZero` models the `ZeroDivisionError` from
`sum(loss_batch) * 1./len(loss_batch)` on an empty `loss_batch`. -/
inductive TrainErr where
  | unboundLocal
  | divisionByZero
deriving DecidableEq

/-- The value returned by `train_one_epoch`: the accumulator's finalized
output/target matrices, the recorded loss list, the applied optimizer
steps (each with its contributing batch indices) and `loss_avg`. -/
structure EpochResult where
  outputs : List (List ℤ)
  targets : List (List ℤ)
  lossBatch : List ℚ
  steps : List (List ℕ)
  lossAvg : ℚ
deriving DecidableEq

/-- Shallow embedding of `train_one_epoch` (src/train.py lines 31-88):
run the training loop over all batches; then the `for/else` branch runs —
on an empty loader it reads the never-bound `i`, otherwise it flushes the
incomplete final group (`(i + 1) % K != 0` with `i = N - 1`, appending the
last batch's `loss.item()`); finally the accumulator is finalized and
`loss_avg = sum(loss_batch) * 1./len(loss_batch)` is computed, a division
that fails if no loss was recorded. -/
def trainOneEpoch (K : ℕ) (th : ℚ) (batches : List Batch) :
    Except TrainErr EpochResult :=
  let s := epochState K th batches
  match batches with
  | [] => .error .unboundLocal
  | b :: bs =>
    let n := (b :: bs).length
    let lastLoss := ((b :: bs).getLast (List.cons_ne_nil b bs)).lossVal
    let s2 : LoopState :=
      if n % K ≠ 0 then
        { s with
          steps := s.steps ++ [s.pending]
          pending := []
          lossBatch := s.lossBatch ++ [lastLoss] }
      else s
    if s2.lossBatch.length = 0 then .error .divisionByZero
    else
      .ok ⟨s2.outputs, s2.targets, s2.lossBatch, s2.steps,
        s2.lossBatch.sum / (s2.lossBatch.length : ℚ)⟩

/-- Modelled from the spec: the hypothetical variant of `train_one_epoch`
whose final-group tail-flush branch is skipped, used by the spec's
failure-semantics clause ("an empty recorded-loss list (possible if K
exceeds the number of batches and the tail-flush logic is skipped) yields
a division-by-zero when averaging"). Identical to `trainOneEpoch` except
that the `for/else` tail flush never runs. -/
def trainOneEpochNoTailFlush (K : ℕ) (th : ℚ) (batches : List Batch) :
    Except TrainErr EpochResult :=
  let s := epochState K th batches
  if s.lossBatch.length = 0 then .error .divisionByZero
  else
    .ok ⟨s.outputs, s.targets, s.lossBatch, s.steps,
      s.lossBatch.sum / (s.lossBatch.length : ℚ)⟩

/-- The best-tracker state of `train_and_evaluate`: the running maxima
`best_train_macro_f1` and `best_test_macro_f1`. -/
structure BestState where
  bestTrain : ℚ
  bestTest : ℚ
deriving DecidableEq

/-- Observable per-epoch record of one iteration of the epoch loop of
`train_and_evaluate`: the loop epoch index, the two is-best decisions, the
tracker values after the epoch's updates, whether the per-partition best
metric files were overwritten, and the checkpoint save performed at the
end of the iteration (`epoch` field stored in the record, the `is_best`
argument, and the periodic-snapshot argument). -/
structure EpochLog where
  epoch : ℕ
  isTrainBest : Bool
  isTestBest : Bool
  bestTrainAfter : ℚ
  bestTestAfter : ℚ
  wroteBestTrainJson : Bool
  wroteBestTestJson : Bool
  ckptEpochField : ℕ
  ckptIsBest : Bool
  ckptPeriodic : Bool
deriving DecidableEq

/-- One iteration of the epoch loop of `train_and_evaluate` at loop epoch
`e`, given the re-evaluation macro-F1 of the train partition `f e` and of
the test partition `g e` and the checkpoint cadence `S`
(`params.save_every`): compute `is_train_best = train_macro_f1 >= best`,
`is_test_best = test_macro_f1 >= best`, update the trackers and write the
best files on improvement, and save a checkpoint whose record stores
`epoch + 1`, with `is_best = is_test_best` and periodic flag
`(epoch + 1) % S == 0`. -/
def epochStep (f g : ℕ → ℚ) (S : ℕ) (b : BestState) (e : ℕ) :
    BestState × EpochLog :=
  let isTrainBest : Bool := decide (b.bestTrain ≤ f e)
  let isTestBest : Bool := decide (b.bestTest ≤ g e)
  let bTrain : ℚ := if isTrainBest then f e else b.bestTrain
  let bTest : ℚ := if isTestBest then g e else b.bestTest
  (⟨bTrain, bTest⟩,
   ⟨e, isTrainBest, isTestBest, bTrain, bTest, isTrainBest, isTestBest,
    e + 1, isTestBest, decide ((e + 1) % S = 0)⟩)

/-- The epoch loop of `train_and_evaluate` over the given list of loop
epoch indices, threading the best-tracker state and emitting one
`EpochLog` per epoch. -/
def runEpochs (f g : ℕ → ℚ) (S : ℕ) : BestState → List ℕ → BestState × List EpochLog
  | b, [] => (b, [])
  | b, e :: es =>
    let p := epochStep f g S b e
    let q := runEpochs f g S p.1 es
    (q.1, p.2 :: q.2)

/-- Python runtime error of the final checkpoint save of
`train_and_evaluate`: if the epoch loop ran zero iterations, `state` and
`is_test_best` were never bound and the final `utils.save_checkpoint`
call raises `NameError`. -/
inductive OrchErr where
  | unboundLocal
deriving DecidableEq

/-- The unconditional checkpoint save performed after the epoch loop of
`train_and_evaluate`: the `epoch` field of the saved record, the
`is_best` argument, and the periodic argument (passed as `True`). -/
structure FinalSave where
  epochField : ℕ
  isBest : Bool
  periodic : Bool
deriving DecidableEq

/-- Start epoch of `train_and_evaluate`. Modelled from the spec for the
missing `utils.load_checkpoint`: loading returns the `epoch` value stored
in the checkpoint record, and `start_epoch = loaded_epoch + 1`; with no
restore file, `start_epoch = 0`. Here `restore = some loaded` carries the
`epoch` field read back from the checkpoint. -/
def startEpochOf : Option ℕ → ℕ
  | none => 0
  | some loaded => loaded + 1

/-- Shallow embedding of `train_and_evaluate` (src/train.py lines 91-184)
restricted to its orchestration state: `f e` / `g e` are the macro-F1
values the external `evaluate` collaborator reports for the train / test
partition at loop epoch `e`. Returns the final best-tracker state, the
per-epoch logs, and the result of the final unconditional checkpoint save
(which raises if the loop never ran, since `state` is unbound there). -/
def trainAndEvaluate (numEpochs S : ℕ) (f g : ℕ → ℚ) (restore : Option ℕ) :
    BestState × List EpochLog × Except OrchErr FinalSave :=
  let start := startEpochOf restore
  let r := runEpochs f g S ⟨0, 0⟩ (List.range' start (numEpochs - start))
  let fin : Except OrchErr FinalSave :=
    match r.2.getLast? with
    | none => .error .unboundLocal
    | some last => .ok ⟨last.ckptEpochField, last.isTestBest, true⟩
  (r.1, r.2, fin)


/-- Auxiliary: recorded group losses produced by the loop from batch index
`i` on: the loss of each batch whose 1-based position is a multiple of the
accumulation period. -/
def stepLosses (K : ℕ) : ℕ → List Batch → List ℚ
  | _, [] => []
  | i, b :: bs => (if (i + 1) % K = 0 then [b.lossVal] else []) ++ stepLosses K (i + 1) bs

/-- Auxiliary counter form of `stepLosses`: `c` counts the batches already
pending in the current accumulation group. -/
def stepLossesC (K : ℕ) : ℕ → List Batch → List ℚ
  | _, [] => []
  | c, b :: bs =>
    if c + 1 = K then b.lossVal :: stepLossesC K 0 bs else stepLossesC K (c + 1) bs

theorem add_one_mod (K i : ℕ) : (i + 1) % K = (i % K + 1) % K := by
  conv_lhs => rw [Nat.add_mod]
  rcases Nat.eq_zero_or_pos K with h | h
  · subst h; simp
  · rcases Nat.lt_or_ge 1 K with h1 | h1
    · rw [Nat.mod_eq_of_lt h1]
    · interval_cases K
      simp

theorem succ_mod_eq_zero_iff {K i : ℕ} (hK : 0 < K) :
    (i + 1) % K = 0 ↔ i % K + 1 = K := by
  have h1 : i % K < K := Nat.mod_lt _ hK
  rw [add_one_mod]
  constructor
  · intro h
    by_contra hne
    have hlt : i % K + 1 < K := by omega
    rw [Nat.mod_eq_of_lt hlt] at h
    omega
  · intro h
    rw [h, Nat.mod_self]

theorem succ_mod_of_ne {K i : ℕ} (hK : 0 < K) (h : (i + 1) % K ≠ 0) :
    (i + 1) % K = i % K + 1 := by
  have h1 : i % K < K := Nat.mod_lt _ hK
  have h2 : i % K + 1 ≠ K := fun hc => h ((succ_mod_eq_zero_iff hK).2 hc)
  rw [add_one_mod, Nat.mod_eq_of_lt (by omega)]

theorem stepLosses_eq_c {K : ℕ} (hK : 0 < K) :
    ∀ (bs : List Batch) (i : ℕ), stepLosses K i bs = stepLossesC K (i % K) bs := by
  intro bs
  induction bs with
  | nil => intro i; rfl
  | cons b bs ih =>
    intro i
    by_cases h : (i + 1) % K = 0
    · have hc : i % K + 1 = K := (succ_mod_eq_zero_iff hK).1 h
      simp only [stepLosses, stepLossesC, if_pos h, if_pos hc, ih (i + 1), h]
      simp
    · have hc : i % K + 1 ≠ K := fun hcc => h ((succ_mod_eq_zero_iff hK).2 hcc)
      simp only [stepLosses, stepLossesC, if_neg h, if_neg hc, ih (i + 1),
        succ_mod_of_ne hK h]
      simp

theorem stepLossesC_short {K : ℕ} :
    ∀ (bs : List Batch) (c : ℕ), c < K → bs.length < K - c → stepLossesC K c bs = [] := by
  intro bs
  induction bs with
  | nil => intro c _ _; rfl
  | cons b bs ih =>
    intro c hc hlen
    simp only [List.length_cons] at hlen
    have hne : c + 1 ≠ K := by omega
    simp only [stepLossesC, if_neg hne]
    exact ih (c + 1) (by omega) (by omega)

theorem stepLossesC_long {K : ℕ} :
    ∀ (bs : List Batch) (c : ℕ), c < K → K - c ≤ bs.length →
      ∃ b0 : Batch, bs[K - c - 1]? = some b0 ∧
        stepLossesC K c bs = b0.lossVal :: stepLossesC K 0 (bs.drop (K - c)) := by
  intro bs
  induction bs with
  | nil => intro c hc hlen; simp at hlen; omega
  | cons b bs ih =>
    intro c hc hlen
    by_cases h : c + 1 = K
    · have h1 : K - c = 1 := by omega
      refine ⟨b, ?_, ?_⟩
      · simp [h1]
      · simp only [stepLossesC, if_pos h, h1]
        simp
    · have hc1 : c + 1 < K := by omega
      have hlen1 : K - (c + 1) ≤ bs.length := by
        simp only [List.length_cons] at hlen; omega
      obtain ⟨b0, hb0, heq⟩ := ih (c + 1) hc1 hlen1
      refine ⟨b0, ?_, ?_⟩
      · have e1 : K - c - 1 = (K - (c + 1) - 1) + 1 := by omega
        rw [e1, List.getElem?_cons_succ]
        exact hb0
      · have e2 : K - c = (K - (c + 1)) + 1 := by omega
        simp only [stepLossesC, if_neg h, heq, e2, List.drop_succ_cons]

theorem stepLossesC_length {K : ℕ} (hK : 0 < K) :
    ∀ (n : ℕ) (bs : List Batch), bs.length ≤ n →
      (stepLossesC K 0 bs).length = bs.length / K := by
  intro n
  induction n with
  | zero =>
    intro bs hbs
    have : bs = [] := List.length_eq_zero.1 (by omega)
    subst this
    simp [stepLossesC]
  | succ n ih =>
    intro bs hbs
    by_cases h : K ≤ bs.length
    · obtain ⟨b0, _, heq⟩ := stepLossesC_long bs 0 hK (by omega)
      have hdrop : (bs.drop (K - 0)).length = bs.length - K := by
        rw [List.length_drop]; omega
      have hrec := ih (bs.drop (K - 0)) (by rw [hdrop]; omega)
      rw [heq, List.length_cons, hrec, hdrop]
      rw [Nat.div_eq_sub_div hK h]
    · rw [stepLossesC_short bs 0 hK (by omega)]
      simp [Nat.div_eq_of_lt (by omega : bs.length < K)]

theorem stepLossesC_getElem {K : ℕ} (hK : 0 < K) :
    ∀ (g : ℕ) (bs : List Batch), g < (stepLossesC K 0 bs).length →
      (stepLossesC K 0 bs)[g]? = bs[K * (g + 1) - 1]?.map (fun b => b.lossVal) := by
  intro g
  induction g with
  | zero =>
    intro bs hg
    by_cases h : K ≤ bs.length
    · obtain ⟨b0, hb0, heq⟩ := stepLossesC_long bs 0 hK (by omega)
      have e : K * (0 + 1) - 1 = K - 0 - 1 := by omega
      rw [heq, e, hb0]
      simp
    · rw [stepLossesC_short bs 0 hK (by omega)] at hg
      simp at hg
  | succ g ih =>
    intro bs hg
    by_cases h : K ≤ bs.length
    · obtain ⟨b0, hb0, heq⟩ := stepLossesC_long bs 0 hK (by omega)
      rw [heq] at hg
      simp only [List.length_cons] at hg
      have hg2 : g < (stepLossesC K 0 (bs.drop (K - 0))).length := by omega
      have hKg : K * 1 ≤ K * (g + 1) := Nat.mul_le_mul_left K (by omega)
      have hKg2 : K * (g + 1 + 1) = K * (g + 1) + K := by ring
      rw [heq, List.getElem?_cons_succ, ih (bs.drop (K - 0)) hg2,
        List.getElem?_drop]
      congr 2
      omega
    · rw [stepLossesC_short bs 0 hK (by omega)] at hg
      simp at hg


theorem stepBody_lossBatch (K : ℕ) (th : ℚ) (s : LoopState) (i : ℕ) (b : Batch) :
    (stepBody K th s i b).lossBatch =
      s.lossBatch ++ (if (i + 1) % K = 0 then [b.lossVal] else []) := by
  unfold stepBody
  split <;> simp

theorem stepBody_steps_length (K : ℕ) (th : ℚ) (s : LoopState) (i : ℕ) (b : Batch) :
    (stepBody K th s i b).steps.length =
      s.steps.length + (if (i + 1) % K = 0 then [b.lossVal] else []).length := by
  unfold stepBody
  split <;> simp

theorem stepBody_flatten (K : ℕ) (th : ℚ) (s : LoopState) (i : ℕ) (b : Batch) :
    (stepBody K th s i b).steps.flatten ++ (stepBody K th s i b).pending =
      s.steps.flatten ++ s.pending ++ [i] := by
  unfold stepBody
  split <;> simp

theorem stepBody_outputs (K : ℕ) (th : ℚ) (s : LoopState) (i : ℕ) (b : Batch) :
    (stepBody K th s i b).outputs = s.outputs ++ binMatrix th b.pred := by
  unfold stepBody
  split <;> simp

theorem stepBody_targets (K : ℕ) (th : ℚ) (s : LoopState) (i : ℕ) (b : Batch) :
    (stepBody K th s i b).targets = s.targets ++ b.target := by
  unfold stepBody
  split <;> simp

theorem stepBody_pending_length {K : ℕ} (hK : 0 < K) (th : ℚ) (s : LoopState)
    (i : ℕ) (b : Batch) (hp : s.pending.length = i % K) :
    (stepBody K th s i b).pending.length = (i + 1) % K := by
  unfold stepBody
  by_cases h : (i + 1) % K = 0
  · simp [if_pos h, h]
  · simp only [if_neg h]
    simp only [List.length_append, List.length_cons, List.length_nil, hp]
    rw [succ_mod_of_ne hK h]

theorem runBatches_lossBatch (K : ℕ) (th : ℚ) :
    ∀ (bs : List Batch) (i : ℕ) (s : LoopState),
      (runBatches K th i bs s).lossBatch = s.lossBatch ++ stepLosses K i bs := by
  intro bs
  induction bs with
  | nil => intro i s; simp [runBatches, stepLosses]
  | cons b bs ih =>
    intro i s
    simp only [runBatches, stepLosses, ih (i + 1), stepBody_lossBatch]
    simp

theorem runBatches_steps_length (K : ℕ) (th : ℚ) :
    ∀ (bs : List Batch) (i : ℕ) (s : LoopState),
      (runBatches K th i bs s).steps.length =
        s.steps.length + (stepLosses K i bs).length := by
  intro bs
  induction bs with
  | nil => intro i s; simp [runBatches, stepLosses]
  | cons b bs ih =>
    intro i s
    simp only [runBatches, stepLosses, ih (i + 1), stepBody_steps_length]
    simp only [List.length_append]
    omega

theorem runBatches_flatten (K : ℕ) (th : ℚ) :
    ∀ (bs : List Batch) (i : ℕ) (s : LoopState),
      (runBatches K th i bs s).steps.flatten ++ (runBatches K th i bs s).pending =
        s.steps.flatten ++ s.pending ++ List.range' i bs.length := by
  intro bs
  induction bs with
  | nil => intro i s; simp [runBatches]
  | cons b bs ih =>
    intro i s
    simp only [runBatches, List.length_cons, List.range'_succ]
    rw [ih (i + 1), stepBody_flatten]
    simp

theorem runBatches_outputs (K : ℕ) (th : ℚ) :
    ∀ (bs : List Batch) (i : ℕ) (s : LoopState),
      (runBatches K th i bs s).outputs =
        s.outputs ++ (bs.map (fun b => binMatrix th b.pred)).flatten := by
  intro bs
  induction bs with
  | nil => intro i s; simp [runBatches]
  | cons b bs ih =>
    intro i s
    simp only [runBatches, ih (i + 1), stepBody_outputs]
    simp

theorem runBatches_targets (K : ℕ) (th : ℚ) :
    ∀ (bs : List Batch) (i : ℕ) (s : LoopState),
      (runBatches K th i bs s).targets =
        s.targets ++ (bs.map (fun b => b.target)).flatten := by
  intro bs
  induction bs with
  | nil => intro i s; simp [runBatches]
  | cons b bs ih =>
    intro i s
    simp only [runBatches, ih (i + 1), stepBody_targets]
    simp

theorem runBatches_pending_length {K : ℕ} (hK : 0 < K) (th : ℚ) :
    ∀ (bs : List Batch) (i : ℕ) (s : LoopState), s.pending.length = i % K →
      (runBatches K th i bs s).pending.length = (i + bs.length) % K := by
  intro bs
  induction bs with
  | nil => intro i s hp; simpa [runBatches] using hp
  | cons b bs ih =>
    intro i s hp
    simp only [runBatches, List.length_cons]
    rw [ih (i + 1) _ (stepBody_pending_length hK th s i b hp)]
    congr 1
    omega

/-- The number of gradient groups over `n` batches with accumulation
period `K`: `n / K` full groups plus one incomplete tail group, which
equals the ceiling of `n / K`. -/
theorem ceil_div_eq {K : ℕ} (hK : 0 < K) (n : ℕ) :
    n / K + (if n % K = 0 then 0 else 1) = (n + K - 1) / K := by
  have hmod : K * (n / K) + n % K = n := Nat.div_add_mod n K
  have hmlt : n % K < K := Nat.mod_lt _ hK
  have h0 : (K - 1) / K = 0 := Nat.div_eq_of_lt (by omega)
  by_cases h : n % K = 0
  · rw [if_pos h]
    have e : n + K - 1 = (K - 1) + K * (n / K) := by omega
    rw [e, Nat.add_mul_div_left _ _ hK, h0]
    omega
  · rw [if_neg h]
    have h1 : (n % K - 1) / K = 0 := Nat.div_eq_of_lt (by omega)
    have e : n + K - 1 = (n % K - 1) + K * (n / K + 1) := by
      have : K * (n / K + 1) = K * (n / K) + K := by ring
      omega
    rw [e, Nat.add_mul_div_left _ _ hK, h1]
    omega


theorem epochState_lossBatch {K : ℕ} (hK : 0 < K) (th : ℚ) (batches : List Batch) :
    (epochState K th batches).lossBatch = stepLossesC K 0 batches := by
  unfold epochState
  rw [runBatches_lossBatch, stepLosses_eq_c hK, Nat.zero_mod]
  simp [initState]

theorem epochState_lossBatch_length {K : ℕ} (hK : 0 < K) (th : ℚ)
    (batches : List Batch) :
    (epochState K th batches).lossBatch.length = batches.length / K := by
  rw [epochState_lossBatch hK]
  exact stepLossesC_length hK batches.length batches le_rfl

theorem epochState_steps_length {K : ℕ} (hK : 0 < K) (th : ℚ)
    (batches : List Batch) :
    (epochState K th batches).steps.length = batches.length / K := by
  unfold epochState
  rw [runBatches_steps_length]
  simp only [initState, List.length_nil, Nat.zero_add]
  rw [stepLosses_eq_c hK, Nat.zero_mod]
  exact stepLossesC_length hK batches.length batches le_rfl

theorem epochState_flatten (K : ℕ) (th : ℚ) (batches : List Batch) :
    (epochState K th batches).steps.flatten ++ (epochState K th batches).pending =
      List.range batches.length := by
  unfold epochState
  rw [runBatches_flatten, List.range_eq_range']
  simp [initState]

theorem epochState_pending_length {K : ℕ} (hK : 0 < K) (th : ℚ)
    (batches : List Batch) :
    (epochState K th batches).pending.length = batches.length % K := by
  unfold epochState
  rw [runBatches_pending_length hK th batches 0 initState (by simp [initState])]
  simp

theorem epochState_outputs (K : ℕ) (th : ℚ) (batches : List Batch) :
    (epochState K th batches).outputs =
      (batches.map (fun b => binMatrix th b.pred)).flatten := by
  unfold epochState
  rw [runBatches_outputs]
  simp [initState]

theorem epochState_targets (K : ℕ) (th : ℚ) (batches : List Batch) :
    (epochState K th batches).targets = (batches.map (fun b => b.target)).flatten := by
  unfold epochState
  rw [runBatches_targets]
  simp [initState]

/-- Characterization of a successful run of `train_one_epoch` with a
positive accumulation period over a non-empty loader: the applied
optimizer steps and the recorded losses both number `⌈N / K⌉`; together
the applied steps' gradient groups cover exactly the batch indices
`0 .. N-1` in order; the accumulator holds the binarized predictions and
the targets of every batch in order; `loss_avg` is the arithmetic mean of
the recorded losses; the loss recorded for full group `g` is the loss of
the group's last batch (1-based position `K * (g + 1)`); and an
incomplete tail group records the loss of the final batch. -/
theorem trainOneEpoch_ok {K : ℕ} (th : ℚ) {batches : List Batch}
    (hK : 0 < K) (hne : batches ≠ []) :
    ∃ r, trainOneEpoch K th batches = .ok r ∧
      r.lossBatch.length = (batches.length + K - 1) / K ∧
      r.steps.length = (batches.length + K - 1) / K ∧
      r.steps.flatten = List.range batches.length ∧
      r.outputs = (batches.map (fun b => binMatrix th b.pred)).flatten ∧
      r.targets = (batches.map (fun b => b.target)).flatten ∧
      r.lossAvg = r.lossBatch.sum / (r.lossBatch.length : ℚ) ∧
      (∀ g, g < batches.length / K →
        r.lossBatch[g]? = batches[K * (g + 1) - 1]?.map (fun b => b.lossVal)) ∧
      (batches.length % K ≠ 0 →
        r.lossBatch[batches.length / K]? =
          batches[batches.length - 1]?.map (fun b => b.lossVal)) := by
  obtain ⟨b, bs, rfl⟩ := List.exists_cons_of_ne_nil hne
  have hn1 : 1 ≤ (b :: bs).length := by simp
  have hlb : (epochState K th (b :: bs)).lossBatch = stepLossesC K 0 (b :: bs) :=
    epochState_lossBatch hK th (b :: bs)
  have hlen : (epochState K th (b :: bs)).lossBatch.length = (b :: bs).length / K :=
    epochState_lossBatch_length hK th (b :: bs)
  have hsl : (epochState K th (b :: bs)).steps.length = (b :: bs).length / K :=
    epochState_steps_length hK th (b :: bs)
  have hfl := epochState_flatten K th (b :: bs)
  have hpl := epochState_pending_length hK th (b :: bs)
  have hout := epochState_outputs K th (b :: bs)
  have htgt := epochState_targets K th (b :: bs)
  have hget : ∀ g, g < (b :: bs).length / K →
      (epochState K th (b :: bs)).lossBatch[g]? =
        (b :: bs)[K * (g + 1) - 1]?.map (fun b => b.lossVal) := by
    intro g hg
    rw [hlb]
    exact stepLossesC_getElem hK g (b :: bs) (by
      rw [stepLossesC_length hK (b :: bs).length (b :: bs) le_rfl]; exact hg)
  by_cases h : (b :: bs).length % K = 0
  · -- complete final group: the tail flush is skipped
    have hKn : K ≤ (b :: bs).length := by
      rcases Nat.lt_or_ge (b :: bs).length K with hlt | hge
      · rw [Nat.mod_eq_of_lt hlt] at h; omega
      · exact hge
    have hdiv1 : 1 ≤ (b :: bs).length / K := (Nat.one_le_div_iff hK).2 hKn
    have hpe : (epochState K th (b :: bs)).pending = [] :=
      List.length_eq_zero.1 (by rw [hpl, h])
    have hflat : (epochState K th (b :: bs)).steps.flatten =
        List.range (b :: bs).length := by
      rw [← hfl, hpe]
      simp
    have hnz : ¬(epochState K th (b :: bs)).lossBatch.length = 0 := by
      rw [hlen]; omega
    refine ⟨⟨(epochState K th (b :: bs)).outputs, (epochState K th (b :: bs)).targets,
      (epochState K th (b :: bs)).lossBatch, (epochState K th (b :: bs)).steps,
      (epochState K th (b :: bs)).lossBatch.sum /
        ((epochState K th (b :: bs)).lossBatch.length : ℚ)⟩,
      ?_, ?_, ?_, hflat, hout, htgt, rfl, hget, fun hc => absurd h hc⟩
    · have hcond : ¬((b :: bs).length % K ≠ 0) := by simpa using h
      unfold trainOneEpoch
      simp only [if_neg hcond]
      rw [if_neg hnz]
    · rw [hlen, ← ceil_div_eq hK, if_pos h]
      omega
    · rw [hsl, ← ceil_div_eq hK, if_pos h]
      omega
  · -- incomplete final group: the tail flush applies one more step
    refine ⟨⟨(epochState K th (b :: bs)).outputs, (epochState K th (b :: bs)).targets,
      (epochState K th (b :: bs)).lossBatch ++
        [((b :: bs).getLast (List.cons_ne_nil b bs)).lossVal],
      (epochState K th (b :: bs)).steps ++ [(epochState K th (b :: bs)).pending],
      ((epochState K th (b :: bs)).lossBatch ++
        [((b :: bs).getLast (List.cons_ne_nil b bs)).lossVal]).sum /
       (((epochState K th (b :: bs)).lossBatch ++
        [((b :: bs).getLast (List.cons_ne_nil b bs)).lossVal]).length : ℚ)⟩,
      ?_, ?_, ?_, ?_, hout, htgt, rfl, ?_, ?_⟩
    · have hcond : (b :: bs).length % K ≠ 0 := h
      unfold trainOneEpoch
      simp only [if_pos hcond]
      rw [if_neg (by simp)]
    · simp only [List.length_append, List.length_cons, List.length_nil, hlen]
      rw [← ceil_div_eq hK]
      have h2 : ¬(bs.length + 1) % K = 0 := by simpa using h
      rw [if_neg h2]
    · simp only [List.length_append, List.length_cons, List.length_nil, hsl]
      rw [← ceil_div_eq hK]
      have h2 : ¬(bs.length + 1) % K = 0 := by simpa using h
      rw [if_neg h2]

    · rw [List.flatten_append, ← hfl]
      simp
    · intro g hg
      rw [List.getElem?_append_left (by rw [hlen]; exact hg)]
      exact hget g hg
    · intro _
      rw [List.getElem?_append_right (by rw [hlen]), hlen, Nat.sub_self]
      have hlt : (b :: bs).length - 1 < (b :: bs).length := by simp
      rw [List.getLast_eq_getElem, List.getElem?_eq_getElem hlt]
      simp


theorem epochStep_le (f g : ℕ → ℚ) (S : ℕ) (b : BestState) (e : ℕ) :
    b.bestTrain ≤ (epochStep f g S b e).1.bestTrain ∧
      b.bestTest ≤ (epochStep f g S b e).1.bestTest := by
  unfold epochStep
  constructor
  · by_cases h : b.bestTrain ≤ f e <;> simp [h]
  · by_cases h : b.bestTest ≤ g e <;> simp [h]

theorem epochStep_bestAfter (f g : ℕ → ℚ) (S : ℕ) (b : BestState) (e : ℕ) :
    (epochStep f g S b e).2.bestTrainAfter = (epochStep f g S b e).1.bestTrain ∧
      (epochStep f g S b e).2.bestTestAfter = (epochStep f g S b e).1.bestTest :=
  ⟨rfl, rfl⟩

theorem runEpochs_head_le (f g : ℕ → ℚ) (S : ℕ) :
    ∀ (es : List ℕ) (b : BestState) (l : EpochLog),
      (runEpochs f g S b es).2.head? = some l →
      b.bestTrain ≤ l.bestTrainAfter ∧ b.bestTest ≤ l.bestTestAfter := by
  intro es b l h
  cases es with
  | nil => simp [runEpochs] at h
  | cons e es =>
    simp only [runEpochs, List.head?_cons, Option.some.injEq] at h
    subst h
    obtain ⟨h1, h2⟩ := epochStep_le f g S b e
    obtain ⟨e1, e2⟩ := epochStep_bestAfter f g S b e
    rw [e1, e2]
    exact ⟨h1, h2⟩

theorem runEpochs_chain (f g : ℕ → ℚ) (S : ℕ) :
    ∀ (es : List ℕ) (b : BestState),
      List.Chain' (fun a c => a.bestTrainAfter ≤ c.bestTrainAfter ∧
        a.bestTestAfter ≤ c.bestTestAfter) (runEpochs f g S b es).2 := by
  intro es
  induction es with
  | nil => intro b; simp [runEpochs]
  | cons e es ih =>
    intro b
    simp only [runEpochs]
    rw [List.chain'_cons']
    refine ⟨?_, ih _⟩
    intro y hy
    have hle := runEpochs_head_le f g S es (epochStep f g S b e).1 y hy
    obtain ⟨e1, e2⟩ := epochStep_bestAfter f g S b e
    obtain ⟨h1, h2⟩ := hle
    rw [e1, e2]
    exact ⟨h1, h2⟩

theorem runEpochs_epochs (f g : ℕ → ℚ) (S : ℕ) :
    ∀ (es : List ℕ) (b : BestState),
      (runEpochs f g S b es).2.map (fun l => l.epoch) = es := by
  intro es
  induction es with
  | nil => intro b; simp [runEpochs]
  | cons e es ih =>
    intro b
    simp only [runEpochs, List.map_cons, ih]
    rfl

theorem runEpochs_log_fields (f g : ℕ → ℚ) (S : ℕ) :
    ∀ (es : List ℕ) (b : BestState) (l : EpochLog), l ∈ (runEpochs f g S b es).2 →
      l.ckptIsBest = l.isTestBest ∧ l.ckptEpochField = l.epoch + 1 ∧
      l.ckptPeriodic = decide ((l.epoch + 1) % S = 0) ∧
      l.wroteBestTrainJson = l.isTrainBest ∧ l.wroteBestTestJson = l.isTestBest := by
  intro es
  induction es with
  | nil => intro b l h; simp [runEpochs] at h
  | cons e es ih =>
    intro b l h
    simp only [runEpochs, List.mem_cons] at h
    rcases h with h | h
    · subst h
      exact ⟨rfl, rfl, rfl, rfl, rfl⟩
    · exact ih _ l h

theorem getLast?_range' :
    ∀ (n s : ℕ), 0 < n → (List.range' s n).getLast? = some (s + n - 1) := by
  intro n
  induction n with
  | zero => intro s h; omega
  | succ n ih =>
    intro s _
    rw [List.range'_succ]
    cases n with
    | zero => simp
    | succ m =>
      rw [List.range'_succ, List.getLast?_cons_cons, ← List.range'_succ,
        ih (s + 1) (by omega)]
      congr 1
      omega


/-- A concrete batch whose loss value is `l` (one example, one label). -/
def lossOnlyBatch (l : ℚ) : Batch := ⟨[[1]], [[1]], l⟩

/-- The spec's end-to-end scenario: five batches with pre-backward losses
`[1, 2, 3, 4, 5]`. -/
def scenarioBatches : List Batch :=
  [lossOnlyBatch 1, lossOnlyBatch 2, lossOnlyBatch 3, lossOnlyBatch 4, lossOnlyBatch 5]

/-- The spec's best-tracker scenario: macro-F1 sequence
`[0.10, 0.10, 0.05]` over three epochs. -/
def f1TieSeq : ℕ → ℚ := fun k => if k = 0 then 1/10 else if k = 1 then 1/10 else 1/20

/-- Macro-F1 sequence `[0.5, 0.4, 0.3]` used to exhibit the failure of the
resume property: the best value is reached at epoch 0 and never again. -/
def f1DecSeq : ℕ → ℚ := fun k => if k = 0 then 1/2 else if k = 1 then 2/5 else 3/10

/-- C1: for every training epoch over a non-empty loader with `N` batches
and accumulation period `K > 0`, `train_one_epoch` succeeds, the number of
applied optimizer steps equals `⌈N / K⌉`, the recorded loss list
`loss_batch` has length exactly `⌈N / K⌉` (written `(N + K - 1) / K` in
natural division), and every batch index belongs to the gradient group of
at least one applied optimizer step. -/
theorem C1_step_count_is_ceil (K : ℕ) (th : ℚ) (batches : List Batch)
    (hK : 0 < K) (hne : batches ≠ []) :
    ∃ r, trainOneEpoch K th batches = .ok r ∧
      r.steps.length = (batches.length + K - 1) / K ∧
      r.lossBatch.length = (batches.length + K - 1) / K ∧
      ∀ i, i < batches.length → ∃ grp ∈ r.steps, i ∈ grp := by
  obtain ⟨r, hok, hlen, hsl, hflat, _, _, _, _, _⟩ := trainOneEpoch_ok th hK hne
  refine ⟨r, hok, hsl, hlen, ?_⟩
  intro i hi
  have hmem : i ∈ r.steps.flatten := by
    rw [hflat]
    exact List.mem_range.2 hi
  obtain ⟨grp, hgrp, higrp⟩ := List.mem_flatten.1 hmem
  exact ⟨grp, hgrp, higrp⟩

/-- Witness for C1: `K = 2` over the five-batch scenario. -/
theorem C1_step_count_is_ceil_witness :
    ∃ r, trainOneEpoch 2 (1/2) scenarioBatches = .ok r ∧
      r.steps.length = (scenarioBatches.length + 2 - 1) / 2 ∧
      r.lossBatch.length = (scenarioBatches.length + 2 - 1) / 2 ∧
      ∀ i, i < scenarioBatches.length → ∃ grp ∈ r.steps, i ∈ grp :=
  C1_step_count_is_ceil 2 (1/2) scenarioBatches (by norm_num)
    (by simp [scenarioBatches])

/-- C2: the loss recorded for each accumulation group is the last-observed
batch loss of that group (for a full group `g`, the batch at 1-based
position `K * (g + 1)`; for an incomplete tail group, the final batch),
and the returned `loss_avg` is the arithmetic mean of the recorded
per-group losses; in particular, for `K = 2` and the five-batch scenario
with losses `[1, 2, 3, 4, 5]`, exactly 3 optimizer steps occur, the
recorded values are `[2, 4, 5]`, and `loss_avg = 11/3`, the mean of
exactly those 3 recorded values rather than of all 5 batch losses. -/
theorem C2_group_loss_recording :
    (∀ (K : ℕ) (th : ℚ) (batches : List Batch), 0 < K → batches ≠ [] →
      ∃ r, trainOneEpoch K th batches = .ok r ∧
        r.lossAvg = r.lossBatch.sum / (r.lossBatch.length : ℚ) ∧
        (∀ g, g < batches.length / K →
          r.lossBatch[g]? = batches[K * (g + 1) - 1]?.map (fun b => b.lossVal)) ∧
        (batches.length % K ≠ 0 →
          r.lossBatch[batches.length / K]? =
            batches[batches.length - 1]?.map (fun b => b.lossVal))) ∧
    (trainOneEpoch 2 (1/2) scenarioBatches).map (fun r => r.steps.length) = .ok 3 ∧
    (trainOneEpoch 2 (1/2) scenarioBatches).map (fun r => r.lossBatch) = .ok [2, 4, 5] ∧
    (trainOneEpoch 2 (1/2) scenarioBatches).map (fun r => r.lossAvg) = .ok (11/3) := by
  refine ⟨?_, ?_, ?_, ?_⟩
  · intro K th batches hK hne
    obtain ⟨r, hok, _, _, _, _, _, havg, hget, htail⟩ := trainOneEpoch_ok th hK hne
    exact ⟨r, hok, havg, hget, htail⟩
  · norm_num [trainOneEpoch, epochState, runBatches, stepBody, initState,
      scenarioBatches, lossOnlyBatch, Except.map]
  · norm_num [trainOneEpoch, epochState, runBatches, stepBody, initState,
      scenarioBatches, lossOnlyBatch, Except.map]
  · norm_num [trainOneEpoch, epochState, runBatches, stepBody, initState,
      scenarioBatches, lossOnlyBatch, Except.map]

/-- Witness for C2: the general clause applied to `K = 2` and the
five-batch scenario. -/
theorem C2_group_loss_recording_witness :
    ∃ r, trainOneEpoch 2 (1/2) scenarioBatches = .ok r ∧
      r.lossAvg = r.lossBatch.sum / (r.lossBatch.length : ℚ) ∧
      (∀ g, g < scenarioBatches.length / 2 →
        r.lossBatch[g]? = scenarioBatches[2 * (g + 1) - 1]?.map (fun b => b.lossVal)) ∧
      (scenarioBatches.length % 2 ≠ 0 →
        r.lossBatch[scenarioBatches.length / 2]? =
          scenarioBatches[scenarioBatches.length - 1]?.map (fun b => b.lossVal)) :=
  C2_group_loss_recording.1 2 (1/2) scenarioBatches (by norm_num)
    (by simp [scenarioBatches])


/-- C3: `is_train_best` and `is_test_best` are computed with a
greater-or-equal comparison against the current best values, so a
macro-F1 exactly equal to the current best counts as an improvement and
overwrites the corresponding best artifact; for a test macro-F1 sequence
`[0.10, 0.10, 0.05]` over 3 epochs, `is_test_best` is
`[true, true, false]`. -/
theorem C3_tie_counts_as_best :
    (∀ (f g : ℕ → ℚ) (S : ℕ) (b : BestState) (e : ℕ),
      (epochStep f g S b e).2.isTrainBest = decide (b.bestTrain ≤ f e) ∧
      (epochStep f g S b e).2.isTestBest = decide (b.bestTest ≤ g e) ∧
      (b.bestTrain = f e →
        (epochStep f g S b e).2.isTrainBest = true ∧
        (epochStep f g S b e).2.wroteBestTrainJson = true ∧
        (epochStep f g S b e).1.bestTrain = f e) ∧
      (b.bestTest = g e →
        (epochStep f g S b e).2.isTestBest = true ∧
        (epochStep f g S b e).2.wroteBestTestJson = true ∧
        (epochStep f g S b e).1.bestTest = g e)) ∧
    ((trainAndEvaluate 3 1 f1TieSeq f1TieSeq none).2.1.map
      (fun l => l.isTestBest) = [true, true, false]) ∧
    ((trainAndEvaluate 3 1 f1TieSeq f1TieSeq none).2.1.map
      (fun l => l.wroteBestTestJson) = [true, true, false]) := by
  refine ⟨?_, ?_, ?_⟩
  · intro f g S b e
    refine ⟨rfl, rfl, ?_, ?_⟩
    · intro h
      have hle : b.bestTrain ≤ f e := le_of_eq h
      unfold epochStep
      simp [hle]
    · intro h
      have hle : b.bestTest ≤ g e := le_of_eq h
      unfold epochStep
      simp [hle]
  · norm_num [trainAndEvaluate, runEpochs, epochStep, startEpochOf, f1TieSeq,
      List.range']
  · norm_num [trainAndEvaluate, runEpochs, epochStep, startEpochOf, f1TieSeq,
      List.range']

/-- Witness for C3: a tie at value `1/10` counts as an improvement. -/
theorem C3_tie_counts_as_best_witness :
    (epochStep (fun _ => (1:ℚ)/10) (fun _ => (1:ℚ)/10) 1 ⟨1/10, 1/10⟩ 0).2.isTestBest = true ∧
    (epochStep (fun _ => (1:ℚ)/10) (fun _ => (1:ℚ)/10) 1 ⟨1/10, 1/10⟩ 0).2.wroteBestTestJson = true ∧
    (epochStep (fun _ => (1:ℚ)/10) (fun _ => (1:ℚ)/10) 1 ⟨1/10, 1/10⟩ 0).1.bestTest = 1/10 :=
  (C3_tie_counts_as_best.1 (fun _ => (1:ℚ)/10) (fun _ => (1:ℚ)/10) 1
    ⟨1/10, 1/10⟩ 0).2.2.2 rfl

/-- C6: if the gradient-accumulation period `K` exceeds the number of
batches and the tail-flush logic is skipped (the spec's hypothetical
broken variant `trainOneEpochNoTailFlush`), the recorded loss list after
the loop is empty and computing `loss_avg` fails with a fatal
division-by-zero error rather than returning a value. -/
theorem C6_empty_loss_division_error (K : ℕ) (th : ℚ) (batches : List Batch)
    (h : batches.length < K) :
    (epochState K th batches).lossBatch = [] ∧
    trainOneEpochNoTailFlush K th batches = .error .divisionByZero := by
  have hK : 0 < K := by omega
  have hempty : (epochState K th batches).lossBatch = [] := by
    rw [epochState_lossBatch hK]
    exact stepLossesC_short batches 0 hK (by omega)
  refine ⟨hempty, ?_⟩
  unfold trainOneEpochNoTailFlush
  simp only []
  rw [if_pos (by rw [hempty]; rfl)]

/-- Witness for C6: two batches with accumulation period 3. -/
theorem C6_empty_loss_division_error_witness :
    (epochState 3 (1/2) [lossOnlyBatch 1, lossOnlyBatch 2]).lossBatch = [] ∧
    trainOneEpochNoTailFlush 3 (1/2) [lossOnlyBatch 1, lossOnlyBatch 2] =
      .error .divisionByZero :=
  C6_empty_loss_division_error 3 (1/2) [lossOnlyBatch 1, lossOnlyBatch 2]
    (by norm_num)

/-- C10: on a loader that yields zero batches, `train_one_epoch` does not
return a metrics summary and does not reach the loss-averaging division:
it fails in the `for/else` tail-flush branch, which reads the loop
variable `i` and the last batch loss that were never bound
(`unboundLocal`, not `divisionByZero`). -/
theorem C10_empty_loader_unbound_local (K : ℕ) (th : ℚ) :
    trainOneEpoch K th [] = .error .unboundLocal := rfl


theorem trainOneEpoch_outputs_targets {K : ℕ} {th : ℚ} {batches : List Batch}
    {r : EpochResult} (hok : trainOneEpoch K th batches = .ok r) :
    r.outputs = (batches.map (fun b => binMatrix th b.pred)).flatten ∧
    r.targets = (batches.map (fun b => b.target)).flatten := by
  cases batches with
  | nil => simp [trainOneEpoch] at hok
  | cons b bs =>
    have hout := epochState_outputs K th (b :: bs)
    have htgt := epochState_targets K th (b :: bs)
    unfold trainOneEpoch at hok
    simp only [] at hok
    by_cases h : (b :: bs).length % K ≠ 0
    · rw [if_pos h, if_neg (by simp)] at hok
      cases hok
      exact ⟨hout, htgt⟩
    · rw [if_neg h] at hok
      by_cases h2 : (epochState K th (b :: bs)).lossBatch.length = 0
      · rw [if_pos h2] at hok
        cases hok
      · rw [if_neg h2] at hok
        cases hok
        exact ⟨hout, htgt⟩

/-- Counterexample for C8 as stated: with threshold `1/2`, the score
vector `[2/5, 1/2, 3/5]` binarizes to `[0, 0, 1]` under the strict `>`
rule — the claimed vector `[0, 1, 1]` is wrong, since the score exactly
equal to the threshold yields `0`, as the claim itself asserts. -/
theorem C8_scenario_counterexample :
    binRow (1/2) [2/5, 1/2, 3/5] = [0, 0, 1] ∧
    binRow (1/2) [2/5, 1/2, 3/5] ≠ [0, 1, 1] := by
  norm_num [binRow]

/-- C8 (amended): binarization uses the strict greater-than rule, so a
score exactly equal to the threshold is binarized to `0`; for threshold
`1/2` the scores `[2/5, 1/2, 3/5]` binarize to `[0, 0, 1]`; elementwise,
position `i` of the binarized row is `1` exactly when the score exceeds
the threshold; and every batch's binarized predictions and integer
targets are fed to the accumulator regardless of the accumulation
boundary. -/
theorem C8_binarization_strict :
    (binRow (1/2) [2/5, 1/2, 3/5] = [0, 0, 1]) ∧
    (∀ th : ℚ, binRow th [th] = [0]) ∧
    (∀ (th : ℚ) (row : List ℚ) (i : ℕ),
      (binRow th row)[i]? = row[i]?.map (fun x => if th < x then 1 else 0)) ∧
    (∀ (K : ℕ) (th : ℚ) (batches : List Batch) (r : EpochResult),
      trainOneEpoch K th batches = .ok r →
      r.outputs = (batches.map (fun b => binMatrix th b.pred)).flatten ∧
      r.targets = (batches.map (fun b => b.target)).flatten) := by
  refine ⟨?_, ?_, ?_, ?_⟩
  · norm_num [binRow]
  · intro th
    simp [binRow]
  · intro th row i
    simp [binRow]
  · intro K th batches r hok
    exact trainOneEpoch_outputs_targets hok

/-- Witness for C8: the elementwise clause at threshold `1/2` and the
accumulator clause on the five-batch scenario. -/
theorem C8_binarization_strict_witness :
    binRow ((1:ℚ)/2) [(1:ℚ)/2] = [0] ∧
    (∃ r, trainOneEpoch 2 (1/2) scenarioBatches = .ok r ∧
      r.outputs = (scenarioBatches.map (fun b => binMatrix (1/2) b.pred)).flatten ∧
      r.targets = (scenarioBatches.map (fun b => b.target)).flatten) := by
  refine ⟨C8_binarization_strict.2.1 (1/2), ?_⟩
  obtain ⟨r, hok, _⟩ := @trainOneEpoch_ok 2 ((1:ℚ)/2) scenarioBatches
    (by norm_num) (by simp [scenarioBatches])
  exact ⟨r, hok, C8_binarization_strict.2.2.2 2 (1/2) scenarioBatches r hok⟩

/-- C4 is contradicted by the code: the checkpoint written at the end of
loop epoch `e` stores `epoch = e + 1` in its record, and resuming sets
`start_epoch = loaded + 1`; so restoring the checkpoint written at the
end of loop epoch 0 of a 3-epoch run (stored epoch field 1) makes the
resumed run train only loop epoch 2, skipping epoch 1 — not the epoch
immediately after the last fully completed one. -/
theorem C4_resume_skips_an_epoch :
    ((trainAndEvaluate 3 1 (fun _ => (0:ℚ)) (fun _ => (0:ℚ)) none).2.1.map
      (fun l => l.ckptEpochField) = [1, 2, 3]) ∧
    startEpochOf (some 1) = 2 ∧
    ((trainAndEvaluate 3 1 (fun _ => (0:ℚ)) (fun _ => (0:ℚ)) (some 1)).2.1.map
      (fun l => l.epoch) = [2]) := by
  refine ⟨?_, rfl, ?_⟩
  · norm_num [trainAndEvaluate, runEpochs, epochStep, startEpochOf, List.range']
  · norm_num [trainAndEvaluate, runEpochs, epochStep, startEpochOf, List.range']

/-- Counterexample for C5 as stated: with macro-F1 sequence
`[1/2, 2/5, 3/10]` for both partitions, the uninterrupted 3-epoch run has
`is_test_best = [true, false, false]` and final best test macro-F1 `1/2`;
resuming from the checkpoint written after loop epoch 0 (stored epoch
field 1) yields a run whose only epoch is marked best
(`is_test_best = [true]`) and whose final best test macro-F1 is `3/10` —
the best-tracker trajectory of the uninterrupted run is not reproduced. -/
theorem C5_resume_counterexample :
    ((trainAndEvaluate 3 1 f1DecSeq f1DecSeq none).2.1.map
      (fun l => l.isTestBest) = [true, false, false]) ∧
    (trainAndEvaluate 3 1 f1DecSeq f1DecSeq none).1.bestTest = 1/2 ∧
    ((trainAndEvaluate 3 1 f1DecSeq f1DecSeq (some 1)).2.1.map
      (fun l => l.isTestBest) = [true]) ∧
    (trainAndEvaluate 3 1 f1DecSeq f1DecSeq (some 1)).1.bestTest = 3/10 := by
  refine ⟨?_, ?_, ?_, ?_⟩ <;>
    norm_num [trainAndEvaluate, runEpochs, epochStep, startEpochOf, f1DecSeq,
      List.range']

/-- C5 (amended): a resumed run continues at loop epoch `loaded + 1`
(where `loaded` is the epoch value read from the checkpoint) with both
best trackers reinitialized to `0.0`; consequently, whenever the next
epoch's macro-F1 values are non-negative, the first resumed epoch is
always marked best for both partitions and resets the trackers to its own
scores — so the best-tracker trajectory of an uninterrupted run from
epoch 0 is in general not reproduced. -/
theorem C5_resume_restarts_trackers (numEpochs S : ℕ) (f g : ℕ → ℚ) (l : ℕ)
    (h : l + 1 < numEpochs) (hf : 0 ≤ f (l + 1)) (hg : 0 ≤ g (l + 1)) :
    ∃ log rest, (trainAndEvaluate numEpochs S f g (some l)).2.1 = log :: rest ∧
      log.epoch = l + 1 ∧ log.isTrainBest = true ∧ log.isTestBest = true ∧
      log.bestTrainAfter = f (l + 1) ∧ log.bestTestAfter = g (l + 1) := by
  unfold trainAndEvaluate
  simp only [startEpochOf]
  have e : numEpochs - (l + 1) = (numEpochs - (l + 1) - 1) + 1 := by omega
  rw [e, List.range'_succ]
  simp only [runEpochs]
  refine ⟨_, _, rfl, rfl, ?_, ?_, ?_, ?_⟩ <;>
    · unfold epochStep
      simp [hf, hg]

/-- Witness for C5 (amended): resuming with loaded epoch 0 in a 2-epoch
run marks its first epoch (loop epoch 1) best for both partitions. -/
theorem C5_resume_restarts_trackers_witness :
    ∃ log rest,
      (trainAndEvaluate 2 1 (fun _ => (1:ℚ)/2) (fun _ => (1:ℚ)/2) (some 0)).2.1 =
        log :: rest ∧
      log.epoch = 1 ∧ log.isTrainBest = true ∧ log.isTestBest = true ∧
      log.bestTrainAfter = 1/2 ∧ log.bestTestAfter = 1/2 :=
  C5_resume_restarts_trackers 2 1 (fun _ => (1:ℚ)/2) (fun _ => (1:ℚ)/2) 0
    (by norm_num) (by norm_num) (by norm_num)

/-- C7: in every epoch of `train_and_evaluate`, a checkpoint record
storing epoch field `epoch + 1` is persisted with `is_best` equal to
`is_test_best` and periodic-snapshot flag `(epoch + 1) % S == 0`; after
the epoch loop (which covers exactly the loop epochs
`start_epoch .. numEpochs - 1`), one additional save is performed
unconditionally with the periodic flag forced `true`, carrying the last
epoch's state and its `is_test_best` value. -/
theorem C7_checkpoint_each_epoch_and_final (numEpochs S : ℕ) (f g : ℕ → ℚ)
    (restore : Option ℕ) (h : startEpochOf restore < numEpochs) :
    ((trainAndEvaluate numEpochs S f g restore).2.1.map (fun l => l.epoch) =
      List.range' (startEpochOf restore) (numEpochs - startEpochOf restore)) ∧
    (∀ l ∈ (trainAndEvaluate numEpochs S f g restore).2.1,
      l.ckptIsBest = l.isTestBest ∧ l.ckptEpochField = l.epoch + 1 ∧
      l.ckptPeriodic = decide ((l.epoch + 1) % S = 0)) ∧
    ∃ last, (trainAndEvaluate numEpochs S f g restore).2.1.getLast? = some last ∧
      last.epoch = numEpochs - 1 ∧
      (trainAndEvaluate numEpochs S f g restore).2.2 =
        .ok ⟨numEpochs, last.isTestBest, true⟩ := by
  have hepochs := runEpochs_epochs f g S
    (List.range' (startEpochOf restore) (numEpochs - startEpochOf restore))
    (⟨0, 0⟩ : BestState)
  have hfields := runEpochs_log_fields f g S
    (List.range' (startEpochOf restore) (numEpochs - startEpochOf restore))
    (⟨0, 0⟩ : BestState)
  have hlast0 : (List.range' (startEpochOf restore)
      (numEpochs - startEpochOf restore)).getLast? = some (numEpochs - 1) := by
    rw [getLast?_range' (numEpochs - startEpochOf restore) (startEpochOf restore)
      (by omega)]
    congr 1
    omega
  set logs := (runEpochs f g S (⟨0, 0⟩ : BestState)
    (List.range' (startEpochOf restore) (numEpochs - startEpochOf restore))).2
    with hlogs
  have hmap : logs.map (fun l => l.epoch) = List.range' (startEpochOf restore)
      (numEpochs - startEpochOf restore) := hepochs
  have hlast1 : logs.getLast?.map (fun l => l.epoch) = some (numEpochs - 1) := by
    rw [← List.getLast?_map, hmap, hlast0]
  obtain ⟨last, hlast, hlaste⟩ : ∃ last, logs.getLast? = some last ∧
      last.epoch = numEpochs - 1 := by
    cases hl : logs.getLast? with
    | none => rw [hl] at hlast1; simp at hlast1
    | some x =>
      rw [hl] at hlast1
      simp only [Option.map_some', Option.some.injEq] at hlast1
      exact ⟨x, rfl, hlast1⟩
  have hlastmem : last ∈ logs := List.mem_of_getLast?_eq_some hlast
  have hlastfield : last.ckptEpochField = last.epoch + 1 :=
    (hfields last hlastmem).2.1
  refine ⟨?_, ?_, last, ?_, hlaste, ?_⟩
  · show logs.map (fun l => l.epoch) = _
    exact hmap
  · intro l hl
    exact ⟨(hfields l hl).1, (hfields l hl).2.1, (hfields l hl).2.2.1⟩
  · show logs.getLast? = some last
    exact hlast
  · show (trainAndEvaluate numEpochs S f g restore).2.2 = _
    unfold trainAndEvaluate
    simp only [← hlogs, hlast]
    rw [hlastfield, hlaste]
    have hone : numEpochs - 1 + 1 = numEpochs := by omega
    rw [hone]


/-- Witness for C7: a 2-epoch run with checkpoint cadence 2 and no
restore point. -/
theorem C7_checkpoint_each_epoch_and_final_witness :
    ((trainAndEvaluate 2 2 (fun _ => (0:ℚ)) (fun _ => (0:ℚ)) none).2.1.map
      (fun l => l.epoch) = List.range' (startEpochOf none) (2 - startEpochOf none)) ∧
    (∀ l ∈ (trainAndEvaluate 2 2 (fun _ => (0:ℚ)) (fun _ => (0:ℚ)) none).2.1,
      l.ckptIsBest = l.isTestBest ∧ l.ckptEpochField = l.epoch + 1 ∧
      l.ckptPeriodic = decide ((l.epoch + 1) % 2 = 0)) ∧
    ∃ last, (trainAndEvaluate 2 2 (fun _ => (0:ℚ)) (fun _ => (0:ℚ)) none).2.1.getLast? =
        some last ∧
      last.epoch = 2 - 1 ∧
      (trainAndEvaluate 2 2 (fun _ => (0:ℚ)) (fun _ => (0:ℚ)) none).2.2 =
        .ok ⟨2, last.isTestBest, true⟩ :=
  C7_checkpoint_each_epoch_and_final 2 2 (fun _ => (0:ℚ)) (fun _ => (0:ℚ)) none
    (by norm_num [startEpochOf])

/-- C9: within a single uninterrupted run of `train_and_evaluate` (no
restore point), the per-epoch values of `best_train_macro_f1` and
`best_test_macro_f1` form non-decreasing sequences. -/
theorem C9_best_trackers_monotone (numEpochs S : ℕ) (f g : ℕ → ℚ) :
    List.Chain' (fun a c => a.bestTrainAfter ≤ c.bestTrainAfter ∧
      a.bestTestAfter ≤ c.bestTestAfter)
      ((trainAndEvaluate numEpochs S f g none).2.1) := by
  unfold trainAndEvaluate
  exact runEpochs_chain f g S _ _

end Train
